import Mathlib

/-!
# cth subscriber: decoding of scan messages and the last-write-wins upsert

A shallow embedding of `cmd/subscriber/scan.go` and `cmd/subscriber/main.go`.

* Go `string` / `[]byte` values are byte sequences (`GoString`).
* The `scans` table is a map from the unique key `(ip, port, service)` to the
  remaining columns `(timestamp, data)`.
* A wire message is the JSON text after Go's scanner has tokenised it: a JSON
  syntax tree whose strings are already unquoted.
-/

namespace Subscriber

/-! ## Go values -/

/-- A Go `byte`. -/
abbrev Byte := Fin 256

/-- A Go `string` (equally a `[]byte`): an immutable sequence of bytes. -/
abbrev GoString := List Byte

/-- The bytes of a string literal of the source (its UTF-8 encoding). -/
def lit (s : String) : GoString :=
  s.toUTF8.data.toList.map (fun b => b.val)

/-- The conversion `byte(x)` of an unsigned integer: the low eight bits. -/
def toByte (x : Nat) : Byte := ⟨x % 256, Nat.mod_lt _ (by decide)⟩

/-- The non-nil `error` values the subscriber can meet: a `SyntaxError` of the JSON
scanner, an `UnmarshalTypeError`, a `base64.CorruptInputError`, and an error made
with `fmt.Errorf` (which also stands for what `pool.Exec` returns). Offsets and
wrapped messages are not kept: the program only ever tests `err != nil`. -/
inductive GoError
  | invalidJSON (msg : String)
  | unmarshalTypeError (value : String) (type : String)
  | corruptInputError
  | errorf (msg : String)
  deriving DecidableEq

deriving instance DecidableEq for Except

/-- `type ScanData string` (scan.go:18). -/
abbrev ScanData := GoString

/-- `type Scan struct` (scan.go:10-16); `Port` is a `uint32`, `Timestamp` an `int64`. -/
structure Scan where
  Ip : GoString
  Port : Nat
  Service : GoString
  Timestamp : Int
  Data : ScanData
  deriving DecidableEq

/-- The zero value of `Scan`, the state of `var scan Scan` (main.go:86). -/
def Scan.zero : Scan := ⟨[], 0, [], 0, []⟩

/-! ## `encoding/base64`: `base64.StdEncoding` -/

/-- The alphabet `encodeStd` of `base64.StdEncoding`. -/
def encodeStd : GoString :=
  lit "ABCDEFGHIJKLMNOPQRSTUVWXYZabcdefghijklmnopqrstuvwxyz0123456789+/"

/-- The padding character `StdPadding`, `=`. -/
def padChar : Byte := 61

/-- The table `enc.encode[i]`, for `i < 64`. -/
def encode (i : Nat) : Byte := encodeStd.getD i 0

/-- The table `enc.decodeMap[c]`: the place of `c` in the alphabet, `0xff` for a
byte that is not in it. -/
def decodeMap (c : Byte) : Nat :=
  let i := encodeStd.indexOf c
  if i < 64 then i else 0xff

/-- `base64.StdEncoding.EncodeToString`: three bytes become four characters,
`val := src[0]<<16 | src[1]<<8 | src[2]`, and a last block of one or two bytes
is padded with `=`. -/
def EncodeToString : List Byte → GoString
  | a :: b :: c :: rest =>
    let val := a.val <<< 16 ||| b.val <<< 8 ||| c.val
    encode (val >>> 18 &&& 0x3F) :: encode (val >>> 12 &&& 0x3F) ::
      encode (val >>> 6 &&& 0x3F) :: encode (val &&& 0x3F) :: EncodeToString rest
  | [a, b] =>
    let val := a.val <<< 16 ||| b.val <<< 8
    [encode (val >>> 18 &&& 0x3F), encode (val >>> 12 &&& 0x3F), encode (val >>> 6 &&& 0x3F),
      padChar]
  | [a] =>
    let val := a.val <<< 16
    [encode (val >>> 18 &&& 0x3F), encode (val >>> 12 &&& 0x3F), padChar, padChar]
  | [] => []

/-- The loop `for si < len(src) && (src[si] == '\n' || src[si] == '\r')` of
`decodeQuantum`. -/
def skipNewlines : List Byte → List Byte
  | c :: rest => if c = 10 ∨ c = 13 then skipNewlines rest else c :: rest
  | [] => []

/-- The end of `decodeQuantum`: the `dlen` six-bit values read so far (the rest of
`dbuf` is zero) are packed, `val := dbuf[0]<<18 | dbuf[1]<<12 | dbuf[2]<<6 | dbuf[3]`,
and give `dlen - 1` bytes. `StdEncoding` is not strict: left-over bits are dropped. -/
def quantumBytes (dbuf : List Nat) : List Byte :=
  let val := dbuf.getD 0 0 <<< 18 ||| dbuf.getD 1 0 <<< 12 ||| dbuf.getD 2 0 <<< 6 |||
    dbuf.getD 3 0
  [toByte (val >>> 16), toByte (val >>> 8), toByte (val >>> 0)].take (dbuf.length - 1)

/-- `Encoding.Decode` for `StdEncoding`, one `decodeQuantum` after the other; `dbuf`
holds the six-bit values of the quantum being read (`j = dbuf.length`). Line
breaks are skipped, any other byte outside the alphabet is an error, padding is
required and must end the input. -/
def decode : List Byte → List Nat → Except GoError (List Byte)
  | [], dbuf => if dbuf.length = 0 then .ok [] else .error .corruptInputError
  | c :: rest, dbuf =>
    let out := decodeMap c
    if out ≠ 0xff then
      if dbuf.length = 3 then
        match decode rest [] with
        | .ok tail => .ok (quantumBytes (dbuf ++ [out]) ++ tail)
        | .error e => .error e
      else decode rest (dbuf ++ [out])
    else if c = 10 ∨ c = 13 then decode rest dbuf
    else if c ≠ padChar then .error .corruptInputError
    else
      match dbuf.length with
      | 0 | 1 => .error .corruptInputError
      | 2 =>
        match skipNewlines rest with
        | [] => .error .corruptInputError
        | c2 :: rest2 =>
          if c2 ≠ padChar then .error .corruptInputError
          else if skipNewlines rest2 ≠ [] then .error .corruptInputError
          else .ok (quantumBytes dbuf)
      | _ =>
        if skipNewlines rest ≠ [] then .error .corruptInputError
        else .ok (quantumBytes dbuf)

/-- `base64.StdEncoding.DecodeString`. -/
def DecodeString (s : GoString) : Except GoError (List Byte) := decode s []

/-! ## `encoding/json`: values and `json.Unmarshal` -/

/-- A JSON number as written: `[-] int [. frac] [e exp]`. -/
structure JNumber where
  neg : Bool
  int : Nat
  frac : Option (List (Fin 10))
  exp : Option Int

/-- A JSON text after scanning: strings and member names are unquoted Go strings,
members are kept in the order written (names may repeat). -/
inductive JVal
  | null
  | bool (b : Bool)
  | num (n : JNumber)
  | str (s : GoString)
  | arr (xs : List JVal)
  | obj (ms : List (GoString × JVal))

/-- The value of a run of decimal digits. -/
def digitsValue (ds : List (Fin 10)) : Nat := ds.foldl (fun acc d => acc * 10 + d.val) 0

/-- The first magnitude that rounds to infinity as a `float64`: `2^1024 - 2^970`. -/
def float64Overflow : Nat := 2 ^ 1024 - 2 ^ 970

/-- Whether `strconv.ParseFloat(s, 64)` returns no error on the number: it reports
`ErrRange` when the magnitude rounds to infinity, and nothing else can go wrong on
a well-formed literal (a value too small rounds to zero without an error). -/
def JNumber.fitsFloat64 (n : JNumber) : Bool :=
  let ds := n.frac.getD []
  let m := n.int * 10 ^ ds.length + digitsValue ds
  let e : Int := n.exp.getD 0 - ds.length
  if 0 ≤ e then decide (m * 10 ^ e.toNat < float64Overflow)
  else decide (m < float64Overflow * 10 ^ (-e).toNat)

/-- `strconv.ParseUint(s, 10, 64)` on the number: digits only, below `2^64`. -/
def JNumber.ParseUint (n : JNumber) : Option Nat :=
  if n.neg = false ∧ n.frac = none ∧ n.exp = none ∧ n.int < 2 ^ 64 then some n.int else none

/-- `strconv.ParseInt(s, 10, 64)` on the number: a sign and digits, in the range of
`int64`. -/
def JNumber.ParseInt (n : JNumber) : Option Int :=
  if n.frac = none ∧ n.exp = none then
    if n.neg then (if n.int ≤ 2 ^ 63 then some (-(n.int : Int)) else none)
    else (if n.int < 2 ^ 63 then some (n.int : Int) else none)
  else none

mutual
/-- How deep arrays and objects nest in a value (the scanner's `parseState` stack). -/
def JVal.depth : JVal → Nat
  | .arr xs => 1 + depthList xs
  | .obj ms => 1 + depthMembers ms
  | _ => 0
/-- The deepest element of an array. -/
def depthList : List JVal → Nat
  | [] => 0
  | x :: xs => max x.depth (depthList xs)
/-- The deepest member value of an object. -/
def depthMembers : List (GoString × JVal) → Nat
  | [] => 0
  | (_, v) :: ms => max v.depth (depthMembers ms)
end

mutual
/-- Whether decoding the value into an `interface{}` saves no error: every number
in it, at any depth, converts to `float64` (`decodeState.convertNumber`). -/
def JVal.numbersFit : JVal → Bool
  | .num n => n.fitsFloat64
  | .arr xs => numbersFitList xs
  | .obj ms => numbersFitMembers ms
  | _ => true
/-- The check `JVal.numbersFit` on every element of an array. -/
def numbersFitList : List JVal → Bool
  | [] => true
  | x :: xs => x.numbersFit && numbersFitList xs
/-- The check `JVal.numbersFit` on every member value of an object. -/
def numbersFitMembers : List (GoString × JVal) → Bool
  | [] => true
  | (_, v) :: ms => v.numbersFit && numbersFitMembers ms
end

/-- The constant `maxNestingDepth` of the scanner. -/
def maxNestingDepth : Nat := 10000

/-- The function `checkValid` on a scanned text: it only fails on nesting deeper than
`maxNestingDepth`. -/
def checkValid (data : JVal) : Bool := decide (data.depth ≤ maxNestingDepth)

/-- A Go `map[string]interface{}`; the nil map has no key. -/
abbrev DataMap := GoString → Option JVal

/-- The assignment `m[k] = v`. -/
def DataMap.set (m : DataMap) (k : GoString) (v : JVal) : DataMap :=
  fun k2 => if k2 = k then some v else m k2

/-- The map an object decodes to: members are stored in the order written, so a
repeated name keeps its last value. -/
def membersMap (ms : List (GoString × JVal)) : DataMap :=
  ms.foldl (fun m kv => m.set kv.1 kv.2) (fun _ => none)

/-- The call `json.Unmarshal(data, &dataMap)` of scan.go:22 with `dataMap` a nil
`map[string]interface{}`: an object fills the map, `null` leaves it nil, anything
else is an `UnmarshalTypeError`; so is a number that does not fit a `float64`. -/
def unmarshalDataMap (data : JVal) : Except GoError DataMap :=
  if checkValid data = false then .error (.invalidJSON "exceeded max depth")
  else
    match data with
    | .obj ms =>
      if numbersFitMembers ms then .ok (membersMap ms)
      else .error (.unmarshalTypeError "number" "float64")
    | .null => .ok (fun _ => none)
    | .arr _ => .error (.unmarshalTypeError "array" "map[string]interface {}")
    | .str _ => .error (.unmarshalTypeError "string" "map[string]interface {}")
    | .num _ => .error (.unmarshalTypeError "number" "map[string]interface {}")
    | .bool _ => .error (.unmarshalTypeError "bool" "map[string]interface {}")

/-! ## scan.go -/

/-- The key of the first data format, scan.go:26. -/
def keyV1 : GoString := lit "response_bytes_utf8"

/-- The key of the second data format, scan.go:41. -/
def keyV2 : GoString := lit "response_str"

/-- `func (s *ScanData) UnmarshalJSON(data []byte) error` (scan.go:20-53): the
error returned, or the value assigned to `*s`. -/
def ScanData.UnmarshalJSON (data : JVal) : Except GoError ScanData :=
  match unmarshalDataMap data with
  | .error err => .error err
  | .ok dataMap =>
    match dataMap keyV1 with
    | some v1data =>
      match v1data with
      | .str dataString =>
        match DecodeString dataString with
        | .error err => .error err
        | .ok decoded => .ok decoded
      | _ =>
        .error (.errorf
          "error unmarshalling ScanData: expected response_bytes_utf8 to be a string")
    | none =>
      match dataMap keyV2 with
      | some v2data =>
        match v2data with
        | .str dataString => .ok dataString
        | _ =>
          .error (.errorf "error unmarshalling ScanData: expected response_str to be a string")
      | none => .error (.errorf "error unmarshalling ScanData: invalid data format")

/-- The fields of `Scan`. -/
inductive Field
  | Ip | Port | Service | Timestamp | Data
  deriving DecidableEq

/-- The JSON names of the fields, from the struct tags of scan.go:11-15. -/
def fieldNames : List (GoString × Field) :=
  [(lit "ip", .Ip), (lit "port", .Port), (lit "service", .Service),
   (lit "timestamp", .Timestamp), (lit "data", .Data)]

/-- The folding of an ASCII byte: a lower-case letter is put in upper case. -/
def foldASCII (c : Byte) : Byte :=
  if 97 ≤ c.val ∧ c.val ≤ 122 then toByte (c.val - 32) else c

/-- The function `foldName` of `encoding/json`, as far as a match against the ASCII
names of `Scan` goes: ASCII letters are put in upper case, the two runes that
fold to an ASCII letter (U+017F to `S`, U+212A to `K`) are replaced by it, every
other byte is kept. -/
def foldName : GoString → GoString
  | c :: d :: e :: rest =>
    if c = 0xE2 ∧ d = 0x84 ∧ e = 0xAA then 75 :: foldName rest
    else if c = 0xC5 ∧ d = 0xBF then 83 :: foldName (e :: rest)
    else foldASCII c :: foldName (d :: e :: rest)
  | [c, d] => if c = 0xC5 ∧ d = 0xBF then [83] else foldASCII c :: foldName [d]
  | [c] => [foldASCII c]
  | [] => []

/-- The field a member of the top-level object is decoded into: the one with
exactly that name, else the first whose name is the same once folded, else none
(the member is skipped). -/
def findField (key : GoString) : Option Field :=
  match fieldNames.find? (fun f => decide (f.1 = key)) with
  | some f => some f.2
  | none =>
    match fieldNames.find? (fun f => decide (foldName f.1 = foldName key)) with
    | some f => some f.2
    | none => none

/-- The part of `decodeState` the decoding of a `Scan` goes through: the struct
being filled and the first `UnmarshalTypeError` saved. -/
structure decodeState where
  scan : Scan
  savedError : Option GoError

/-- `decodeState.saveError`: only the first error is kept. -/
def decodeState.saveError (d : decodeState) (err : GoError) : decodeState :=
  match d.savedError with
  | none => { d with savedError := some err }
  | some _ => d

/-- The name `UnmarshalTypeError` gives the kind of a value. -/
def JVal.kind : JVal → String
  | .null => "null"
  | .bool _ => "bool"
  | .num _ => "number"
  | .str _ => "string"
  | .arr _ => "array"
  | .obj _ => "object"

/-- `decodeState.value` into one field of the struct. A `null` leaves the field as
it is; a value of the wrong kind or a number out of range saves an error and
decoding goes on; `Data` is handed to `ScanData.UnmarshalJSON`, whose error stops
decoding at once. -/
def decodeState.store (d : decodeState) (f : Field) (v : JVal) : Except GoError decodeState :=
  match f with
  | .Data =>
    match ScanData.UnmarshalJSON v with
    | .error err => .error err
    | .ok s => .ok { d with scan := { d.scan with Data := s } }
  | .Ip =>
    match v with
    | .null => .ok d
    | .str s => .ok { d with scan := { d.scan with Ip := s } }
    | _ => .ok (d.saveError (.unmarshalTypeError v.kind "string"))
  | .Service =>
    match v with
    | .null => .ok d
    | .str s => .ok { d with scan := { d.scan with Service := s } }
    | _ => .ok (d.saveError (.unmarshalTypeError v.kind "string"))
  | .Port =>
    match v with
    | .null => .ok d
    | .num n =>
      match n.ParseUint with
      | some u =>
        if u < 2 ^ 32 then .ok { d with scan := { d.scan with Port := u } }
        else .ok (d.saveError (.unmarshalTypeError "number" "uint32"))
      | none => .ok (d.saveError (.unmarshalTypeError "number" "uint32"))
    | _ => .ok (d.saveError (.unmarshalTypeError v.kind "uint32"))
  | .Timestamp =>
    match v with
    | .null => .ok d
    | .num n =>
      match n.ParseInt with
      | some i => .ok { d with scan := { d.scan with Timestamp := i } }
      | none => .ok (d.saveError (.unmarshalTypeError "number" "int64"))
    | _ => .ok (d.saveError (.unmarshalTypeError v.kind "int64"))

/-- `decodeState.object` into the struct: the members in the order written. -/
def decodeState.object (d : decodeState) : List (GoString × JVal) → Except GoError decodeState
  | [] => .ok d
  | (key, v) :: rest =>
    match findField key with
    | none => d.object rest
    | some f =>
      match d.store f v with
      | .error err => .error err
      | .ok d2 => d2.object rest

/-- The call `json.Unmarshal(data, &scan)` of main.go:87 on a well-formed text, with
`scan` the zero `Scan`. -/
def unmarshalScan (data : JVal) : Except GoError Scan :=
  if checkValid data = false then .error (.invalidJSON "exceeded max depth")
  else
    match data with
    | .null => .ok Scan.zero
    | .obj ms =>
      match (decodeState.mk Scan.zero none).object ms with
      | .error err => .error err
      | .ok d =>
        match d.savedError with
        | some err => .error err
        | none => .ok d.scan
    | v => .error (.unmarshalTypeError v.kind "main.Scan")

/-- The body `msg.Data` of a delivered message: bytes that are no JSON text, or the
JSON text they spell. -/
inductive MessageData
  | malformed
  | text (v : JVal)

/-- The call `json.Unmarshal(data, &scan)` of main.go:87. -/
def MessageData.unmarshal : MessageData → Except GoError Scan
  | .malformed => .error (.invalidJSON "invalid character")
  | .text v => unmarshalScan v

/-- The value of the last member of an object that is decoded into the field
`Data`, if there is one. -/
def lastData : List (GoString × JVal) → Option JVal
  | [] => none
  | (key, v) :: rest =>
    match lastData rest with
    | some w => some w
    | none => if findField key = some .Data then some v else none

/-! ## The `scans` table and the statement of `insertMessage` -/

/-- The conflict target `(ip, port, service)` of the statement (main.go:104). -/
abbrev Endpoint := GoString × Nat × GoString

/-- The columns of a row of `scans` that are not part of its key. -/
structure Row where
  timestamp : Int
  data : ScanData
  deriving DecidableEq, Repr

/-- The table `scans`: at most one row per `(ip, port, service)`. -/
abbrev Store := Endpoint → Option Row

/-- The table with no rows. -/
def Store.empty : Store := fun _ => none

/-- The key under which the statement files a scan: `$1, $2, $3`. -/
def Scan.endpoint (e : Scan) : Endpoint := (e.Ip, e.Port, e.Service)

/-- The row the statement's `VALUES` clause proposes: `$4, $5`. -/
def Scan.row (e : Scan) : Row := ⟨e.Timestamp, e.Data⟩

/-- The statement of main.go:99-107 as one atomic step:
`INSERT INTO scans (ip, port, service, timestamp, data) VALUES ($1..$5)
 ON CONFLICT (ip, port, service) DO UPDATE SET timestamp = $4, data = $5
 WHERE scans.timestamp < $4`. -/
def upsert (s : Store) (e : Scan) : Store := fun k =>
  if k = e.endpoint then
    match s k with
    | none => some e.row
    | some r => if r.timestamp < e.Timestamp then some e.row else some r
  else s k

/-- The statement run once per event, in list order. -/
def upsertAll (s : Store) (es : List Scan) : Store := es.foldl upsert s

/-- The statement run `n` times for the same event. -/
def upsertTimes (s : Store) (e : Scan) : Nat → Store
  | 0 => s
  | n + 1 => upsertTimes (upsert s e) e n

/-- The events of `l` with the greatest timestamp carry the same data, unless the
row the table holds for `k` is at least as new as they are (the events then
change nothing). -/
def maxTiesAgree (s : Store) (k : Endpoint) (l : List Scan) : Prop :=
  ∀ x ∈ l, ∀ y ∈ l, (∀ z ∈ l, z.Timestamp ≤ x.Timestamp) → y.Timestamp = x.Timestamp →
    (∀ r, s k = some r → r.timestamp < x.Timestamp) → x.Data = y.Data

/-! ## main.go: `insertMessage` and the receive callback -/

/-- What `pool.Exec` does with the statement for a scan: the error it returns (a
lost connection, a rejected value, ...) and the table afterwards. -/
abbrev Exec := Store → Scan → Option GoError × Store

/-- A database that runs the statement and reports no error. -/
def Exec.healthy : Exec := fun s e => (none, upsert s e)

/-- What a call of `insertMessage` leaves behind: the error returned, the table,
and the statements sent to the database. -/
structure Inserted where
  err : Option GoError
  store : Store
  statements : List Scan

/-- `func insertMessage(pool *pgxpool.Pool, data []byte) error` (main.go:85-110). -/
def insertMessage (exec : Exec) (pool : Store) (data : MessageData) : Inserted :=
  match data.unmarshal with
  | .error _ => ⟨some (.errorf "error unmarshalling message"), pool, []⟩
  | .ok scan =>
    let r := exec pool scan
    ⟨r.1, r.2, [scan]⟩

/-- The two answers a subscriber can give for a message. -/
inductive Signal
  | Ack
  | Nack
  deriving DecidableEq

/-- What the callback of `sub.Receive` leaves behind: the answers given for the
message, in order, the table, and the statements sent. -/
structure Handled where
  signals : List Signal
  store : Store
  statements : List Scan

/-- The callback passed to `sub.Receive` (main.go:64-77). -/
def receive (exec : Exec) (pool : Store) (data : MessageData) : Handled :=
  let r := insertMessage exec pool data
  match r.err with
  | some _ => ⟨[.Nack], r.store, r.statements⟩
  | none => ⟨[.Ack], r.store, r.statements⟩

/-! ## Sample inputs -/

/-- The JSON number written as the decimal digits of `k`. -/
def JVal.ofNat (k : Nat) : JVal := .num ⟨false, k, none, none⟩

/-- The JSON number `1e999`. -/
def JVal.huge : JVal := .num ⟨false, 1, none, some 999⟩

/-- An observation of `10.0.0.1:443/https` at time 100. -/
def older : Scan := ⟨lit "10.0.0.1", 443, lit "https", 100, lit "old"⟩

/-- A later observation of the same endpoint, at time 200. -/
def newer : Scan := ⟨lit "10.0.0.1", 443, lit "https", 200, lit "new"⟩

/-- An observation of the same endpoint at time 100 with data `a`. -/
def tieA : Scan := ⟨lit "10.0.0.1", 443, lit "https", 100, lit "a"⟩

/-- An observation of the same endpoint at time 100 with data `b`. -/
def tieB : Scan := ⟨lit "10.0.0.1", 443, lit "https", 100, lit "b"⟩

/-- The data object `{"response_bytes_utf8": "aGVsbG8=", "response_str": 1e999}`. -/
def dataV1Huge : JVal :=
  .obj [(keyV1, .str (EncodeToString (lit "hello"))), (keyV2, JVal.huge)]

/-- The data object `{"response_str": "hello", "meta": [1e999]}`. -/
def dataV2Huge : JVal :=
  .obj [(keyV2, .str (lit "hello")), (lit "meta", .arr [JVal.huge])]

/-- The data object `{"response_str": "hello", "rtt": 1e999}`. -/
def dataV2Rtt : JVal :=
  .obj [(keyV2, .str (lit "hello")), (lit "rtt", JVal.huge)]

/-- The message `{"ip": "10.0.0.1", "port": 443, "service": "https", "timestamp": 200}`,
which has no `data` member. -/
def messageNoData : MessageData :=
  .text (.obj [(lit "ip", .str (lit "10.0.0.1")), (lit "port", JVal.ofNat 443),
    (lit "service", .str (lit "https")), (lit "timestamp", JVal.ofNat 200)])

/-- The same message with `"data": null`. -/
def messageNullData : MessageData :=
  .text (.obj [(lit "ip", .str (lit "10.0.0.1")), (lit "port", JVal.ofNat 443),
    (lit "service", .str (lit "https")), (lit "timestamp", JVal.ofNat 200),
    (lit "data", .null)])

/-- The same message with an empty data object, `"data": {}`. -/
def messageEmptyData : MessageData :=
  .text (.obj [(lit "ip", .str (lit "10.0.0.1")), (lit "port", JVal.ofNat 443),
    (lit "service", .str (lit "https")), (lit "timestamp", JVal.ofNat 200),
    (lit "data", .obj [])])

set_option exponentiation.threshold 2048

/-! ## Lemmas on `base64.StdEncoding` -/

theorem decodeMap_encode (i : Nat) (h : i < 64) : decodeMap (encode i) = i := by
  have : ∀ j : Fin 64, decodeMap (encode j.val) = j.val := by decide
  exact this ⟨i, h⟩

theorem sextet (v k : Nat) : v >>> k &&& 0x3F < 64 := by
  have h := Nat.and_pow_two_sub_one_eq_mod (v >>> k) 6
  have h2 : (2:Nat) ^ 6 - 1 = 0x3F := by norm_num
  rw [h2] at h
  rw [h]
  exact Nat.mod_lt _ (by norm_num)


theorem toByte_val (b : Byte) : toByte b.val = b := by
  apply Fin.ext
  simp [toByte, Nat.mod_eq_of_lt b.isLt]

theorem decode_valid (i : Nat) (h : i < 64) (rest : List Byte) (dbuf : List Nat) :
    decode (encode i :: rest) dbuf =
      if dbuf.length = 3 then
        match decode rest [] with
        | .ok tail => .ok (quantumBytes (dbuf ++ [i]) ++ tail)
        | .error e => .error e
      else decode rest (dbuf ++ [i]) := by
  have hne : decodeMap (encode i) ≠ 0xff := by rw [decodeMap_encode i h]; omega
  rw [decode]
  simp only [hne, decodeMap_encode i h]
  simp
  intro h255
  omega

/-- On disjoint bit ranges `|` is `+`. -/
theorem or_eq_add (x y k : Nat) (hx : 2 ^ k ∣ x) (hy : y < 2 ^ k) : x ||| y = x + y := by
  obtain ⟨q, rfl⟩ := hx
  exact (Nat.mul_add_lt_is_or hy q).symm

theorem pack3 (a b c : Nat) (hb : b < 256) (hc : c < 256) :
    a <<< 16 ||| b <<< 8 ||| c = a * 65536 + b * 256 + c := by
  have h1 : a <<< 16 ||| b <<< 8 = a * 65536 + b * 256 := by
    rw [Nat.shiftLeft_eq, Nat.shiftLeft_eq]
    rw [or_eq_add _ _ 16 ⟨a, by ring⟩ (by norm_num; omega)]
  rw [h1]
  exact or_eq_add _ _ 8 ⟨a * 256 + b, by ring⟩ (by norm_num; omega)

theorem pack4 (s0 s1 s2 s3 : Nat) (h1 : s1 < 64) (h2 : s2 < 64) (h3 : s3 < 64) :
    s0 <<< 18 ||| s1 <<< 12 ||| s2 <<< 6 ||| s3 = s0 * 262144 + s1 * 4096 + s2 * 64 + s3 := by
  have e1 : s0 <<< 18 ||| s1 <<< 12 = s0 * 262144 + s1 * 4096 := by
    rw [Nat.shiftLeft_eq, Nat.shiftLeft_eq]
    rw [or_eq_add _ _ 18 ⟨s0, by ring⟩ (by norm_num; omega)]
  have e2 : s0 <<< 18 ||| s1 <<< 12 ||| s2 <<< 6 = s0 * 262144 + s1 * 4096 + s2 * 64 := by
    rw [e1, Nat.shiftLeft_eq]
    rw [or_eq_add _ _ 12 ⟨s0 * 64 + s1, by ring⟩ (by norm_num; omega)]
  rw [e2]
  exact or_eq_add _ _ 6 ⟨s0 * 4096 + s1 * 64 + s2, by ring⟩ (by norm_num; omega)

theorem sextet_eq (v k : Nat) : v >>> k &&& 0x3F = v / 2 ^ k % 64 := by
  have h := Nat.and_pow_two_sub_one_eq_mod (v >>> k) 6
  have h2 : (2:Nat) ^ 6 - 1 = 0x3F := by norm_num
  rw [h2] at h
  rw [h, Nat.shiftRight_eq_div_pow]

theorem quantum3 (a b c : Byte) :
    quantumBytes [(a.val <<< 16 ||| b.val <<< 8 ||| c.val) >>> 18 &&& 0x3F,
      (a.val <<< 16 ||| b.val <<< 8 ||| c.val) >>> 12 &&& 0x3F,
      (a.val <<< 16 ||| b.val <<< 8 ||| c.val) >>> 6 &&& 0x3F,
      (a.val <<< 16 ||| b.val <<< 8 ||| c.val) &&& 0x3F] = [a, b, c] := by
  obtain ⟨a, ha⟩ := a
  obtain ⟨b, hb⟩ := b
  obtain ⟨c, hc⟩ := c
  have hlast : ∀ v : Nat, v &&& 0x3F = v % 64 := fun v => by
    have := sextet_eq v 0
    simpa using this
  simp only [quantumBytes, pack3 a b c hb hc, sextet_eq, hlast, List.getD_cons_zero,
    List.getD_cons_succ, List.length_cons, List.length_nil]
  rw [pack4 _ _ _ _ (Nat.mod_lt _ (by norm_num)) (Nat.mod_lt _ (by norm_num))
    (Nat.mod_lt _ (by norm_num))]
  simp only [Nat.shiftRight_eq_div_pow, toByte]
  norm_num
  refine ⟨?_, ?_, ?_⟩ <;> omega


theorem quantum2 (a b : Byte) :
    quantumBytes [(a.val <<< 16 ||| b.val <<< 8) >>> 18 &&& 0x3F,
      (a.val <<< 16 ||| b.val <<< 8) >>> 12 &&& 0x3F,
      (a.val <<< 16 ||| b.val <<< 8) >>> 6 &&& 0x3F] = [a, b] := by
  obtain ⟨a, ha⟩ := a
  obtain ⟨b, hb⟩ := b
  have hp : a <<< 16 ||| b <<< 8 = a * 65536 + b * 256 := by
    have := pack3 a b 0 hb (by norm_num)
    simpa using this
  simp only [quantumBytes, hp, sextet_eq, List.getD_cons_zero,
    List.getD_cons_succ, List.length_cons, List.length_nil, List.getD_nil]
  rw [pack4 _ _ _ _ (Nat.mod_lt _ (by norm_num)) (Nat.mod_lt _ (by norm_num))
    (by norm_num)]
  simp only [Nat.shiftRight_eq_div_pow, toByte]
  simp only [List.take, Nat.reduceAdd, Nat.reduceSub, Nat.reducePow]
  have e1 : ((a * 65536 + b * 256) / 262144 % 64 * 262144 +
      (a * 65536 + b * 256) / 4096 % 64 * 4096 +
      (a * 65536 + b * 256) / 64 % 64 * 64 + 0) / 65536 % 256 = a := by omega
  have e2 : ((a * 65536 + b * 256) / 262144 % 64 * 262144 +
      (a * 65536 + b * 256) / 4096 % 64 * 4096 +
      (a * 65536 + b * 256) / 64 % 64 * 64 + 0) / 256 % 256 = b := by omega
  simp only [e1, e2]

theorem quantum1 (a : Byte) :
    quantumBytes [(a.val <<< 16) >>> 18 &&& 0x3F, (a.val <<< 16) >>> 12 &&& 0x3F] = [a] := by
  obtain ⟨a, ha⟩ := a
  have hp : a <<< 16 = a * 65536 := by rw [Nat.shiftLeft_eq]
  simp only [quantumBytes, hp, sextet_eq, List.getD_cons_zero,
    List.getD_cons_succ, List.length_cons, List.length_nil, List.getD_nil]
  rw [pack4 _ _ _ _ (Nat.mod_lt _ (by norm_num)) (by norm_num) (by norm_num)]
  simp only [Nat.shiftRight_eq_div_pow, toByte]
  simp only [List.take, Nat.reduceAdd, Nat.reduceSub, Nat.reducePow]
  congr 1
  apply Fin.ext
  show (a * 65536 / 262144 % 64 * 262144 + a * 65536 / 4096 % 64 * 4096 + 0 * 64 + 0) / 65536 % 256 = a
  omega

theorem decode_pad (rest : List Byte) (dbuf : List Nat) :
    decode (padChar :: rest) dbuf =
      match dbuf.length with
      | 0 | 1 => .error .corruptInputError
      | 2 =>
        match skipNewlines rest with
        | [] => .error .corruptInputError
        | c2 :: rest2 =>
          if c2 ≠ padChar then .error .corruptInputError
          else if skipNewlines rest2 ≠ [] then .error .corruptInputError
          else .ok (quantumBytes dbuf)
      | _ =>
        if skipNewlines rest ≠ [] then .error .corruptInputError
        else .ok (quantumBytes dbuf) := by
  have h1 : decodeMap padChar = 0xff := by decide
  have h2 : ¬ (padChar = 10 ∨ padChar = 13) := by decide
  rw [decode]
  simp only [h1, h2]
  simp

/-- Decoding inverts encoding. -/
theorem DecodeString_EncodeToString (b : List Byte) : DecodeString (EncodeToString b) = .ok b := by
  unfold DecodeString
  induction b using EncodeToString.induct with
  | case1 a b c rest ih =>
    simp only [EncodeToString]
    rw [decode_valid _ (sextet _ _), if_neg (by simp), decode_valid _ (sextet _ _),
      if_neg (by simp), decode_valid _ (sextet _ _), if_neg (by simp)]
    have h0 : ∀ v : Nat, v &&& 0x3F < 64 := fun v => by simpa using sextet v 0
    rw [decode_valid _ (h0 _), if_pos (by simp), ih]
    simp only [List.nil_append, List.cons_append]
    rw [quantum3]
    rfl
  | case2 a b =>
    simp only [EncodeToString]
    rw [decode_valid _ (sextet _ _), if_neg (by simp), decode_valid _ (sextet _ _),
      if_neg (by simp), decode_valid _ (sextet _ _), if_neg (by simp), decode_pad]
    simp only [List.nil_append, List.cons_append, List.length_cons, List.length_nil]
    simp only [skipNewlines]
    simp [quantum2]
  | case3 a =>
    simp only [EncodeToString]
    rw [decode_valid _ (sextet _ _), if_neg (by simp), decode_valid _ (sextet _ _),
      if_neg (by simp), decode_pad]
    simp only [List.nil_append, List.cons_append, List.length_cons, List.length_nil]
    have hp : ¬ (padChar = 10 ∨ padChar = 13) := by decide
    simp [skipNewlines, quantum1, hp]
  | case4 => simp [EncodeToString, decode]

/-- `StdEncoding` is lenient on two points: line breaks inside the text are
skipped, and the unused low bits of the last character are not checked. -/
theorem DecodeString_lenient :
    DecodeString (lit "aGVs\nbG8=") = .ok (lit "hello") ∧
    DecodeString (lit "aGVsbG9=") = .ok (lit "hello") ∧
    DecodeString (lit "aGVsbG8") = .error .corruptInputError := by
  decide

/-! ## Lemmas on `ScanData.UnmarshalJSON` -/

/-- An object within the nesting limit whose numbers all fit a `float64` decodes
to its map. -/
theorem unmarshalDataMap_obj (ms : List (GoString × JVal))
    (hvalid : checkValid (.obj ms) = true) (hnum : numbersFitMembers ms = true) :
    unmarshalDataMap (.obj ms) = .ok (membersMap ms) := by
  simp [unmarshalDataMap, hvalid, hnum]

/-- An object beyond the nesting limit, or with a number that does not fit, does not
decode. -/
theorem unmarshalDataMap_obj_error (ms : List (GoString × JVal))
    (h : checkValid (.obj ms) = false ∨ numbersFitMembers ms = false) :
    ∃ err, unmarshalDataMap (.obj ms) = .error err := by
  by_cases hvalid : checkValid (.obj ms) = false
  · exact ⟨_, by simp only [unmarshalDataMap, hvalid]; rfl⟩
  · have hnum : numbersFitMembers ms = false := by
      rcases h with h | h
      · exact absurd h hvalid
      · exact h
    have hv : checkValid (.obj ms) = true := by simpa using hvalid
    exact ⟨_, by simp only [unmarshalDataMap, hv, hnum]; rfl⟩

/-- What `ScanData.UnmarshalJSON` does once the map is there. -/
theorem UnmarshalJSON_of_map (data : JVal) (dataMap : DataMap)
    (h : unmarshalDataMap data = .ok dataMap) :
    ScanData.UnmarshalJSON data =
      match dataMap keyV1 with
      | some v1data =>
        match v1data with
        | .str dataString =>
          match DecodeString dataString with
          | .error err => .error err
          | .ok decoded => .ok decoded
        | _ =>
          .error (.errorf
            "error unmarshalling ScanData: expected response_bytes_utf8 to be a string")
      | none =>
        match dataMap keyV2 with
        | some v2data =>
          match v2data with
          | .str dataString => .ok dataString
          | _ =>
            .error (.errorf
              "error unmarshalling ScanData: expected response_str to be a string")
        | none => .error (.errorf "error unmarshalling ScanData: invalid data format") := by
  simp only [ScanData.UnmarshalJSON, h]

/-- A value that is not an object never decodes to a payload. -/
theorem UnmarshalJSON_not_obj (data : JVal) (h : ∀ ms, data ≠ .obj ms) :
    ∃ err, ScanData.UnmarshalJSON data = .error err := by
  by_cases hvalid : checkValid data = false
  · exact ⟨_, by simp only [ScanData.UnmarshalJSON, unmarshalDataMap, hvalid]; rfl⟩
  · have hv : checkValid data = true := by simpa using hvalid
    cases data with
    | obj ms => exact absurd rfl (h ms)
    | null => exact ⟨_, by simp only [ScanData.UnmarshalJSON, unmarshalDataMap, hv]; rfl⟩
    | bool b => exact ⟨_, by simp only [ScanData.UnmarshalJSON, unmarshalDataMap, hv]; rfl⟩
    | num n => exact ⟨_, by simp only [ScanData.UnmarshalJSON, unmarshalDataMap, hv]; rfl⟩
    | str s => exact ⟨_, by simp only [ScanData.UnmarshalJSON, unmarshalDataMap, hv]; rfl⟩
    | arr xs => exact ⟨_, by simp only [ScanData.UnmarshalJSON, unmarshalDataMap, hv]; rfl⟩

/-- A payload only ever comes out of an object that binds one of the two keys to
a string. -/
theorem UnmarshalJSON_ok (data : JVal) (p : ScanData)
    (h : ScanData.UnmarshalJSON data = .ok p) :
    ∃ ms, data = .obj ms ∧
      ((∃ str, membersMap ms keyV1 = some (.str str) ∧ DecodeString str = .ok p) ∨
       (membersMap ms keyV1 = none ∧ membersMap ms keyV2 = some (.str p))) := by
  cases data with
  | obj ms =>
    refine ⟨ms, rfl, ?_⟩
    by_cases hbad : checkValid (.obj ms) = false ∨ numbersFitMembers ms = false
    · obtain ⟨err, herr⟩ := unmarshalDataMap_obj_error ms hbad
      simp only [ScanData.UnmarshalJSON, herr] at h
      cases h
    · have hvalid : checkValid (.obj ms) = true := by
        cases hc : checkValid (.obj ms) with
        | true => rfl
        | false => exact absurd (Or.inl hc) hbad
      have hnum : numbersFitMembers ms = true := by
        cases hc : numbersFitMembers ms with
        | true => rfl
        | false => exact absurd (Or.inr hc) hbad
      rw [UnmarshalJSON_of_map _ _ (unmarshalDataMap_obj ms hvalid hnum)] at h
      cases h1 : membersMap ms keyV1 with
      | some v1 =>
        simp only [h1] at h
        cases v1 with
        | str str =>
          cases hd : DecodeString str with
          | error e =>
            simp only [hd] at h
            cases h
          | ok decoded =>
            simp only [hd] at h
            cases h
            exact Or.inl ⟨str, rfl, hd⟩
        | null => cases h
        | bool b => cases h
        | num n => cases h
        | arr xs => cases h
        | obj ms2 => cases h
      | none =>
        simp only [h1] at h
        cases h2 : membersMap ms keyV2 with
        | none =>
          simp only [h2] at h
          cases h
        | some v2 =>
          simp only [h2] at h
          cases v2 with
          | str str =>
            cases h
            exact Or.inr ⟨rfl, rfl⟩
          | null => cases h
          | bool b => cases h
          | num n => cases h
          | arr xs => cases h
          | obj ms2 => cases h
  | null =>
    obtain ⟨err, herr⟩ := UnmarshalJSON_not_obj .null (fun _ hc => by cases hc)
    rw [herr] at h
    cases h
  | bool b =>
    obtain ⟨err, herr⟩ := UnmarshalJSON_not_obj (.bool b) (fun _ hc => by cases hc)
    rw [herr] at h
    cases h
  | num n =>
    obtain ⟨err, herr⟩ := UnmarshalJSON_not_obj (.num n) (fun _ hc => by cases hc)
    rw [herr] at h
    cases h
  | str str =>
    obtain ⟨err, herr⟩ := UnmarshalJSON_not_obj (.str str) (fun _ hc => by cases hc)
    rw [herr] at h
    cases h
  | arr xs =>
    obtain ⟨err, herr⟩ := UnmarshalJSON_not_obj (.arr xs) (fun _ hc => by cases hc)
    rw [herr] at h
    cases h

/-! ## Lemmas on the decoding of a `Scan` -/

/-- Saving an error leaves the struct alone. -/
theorem saveError_scan (d : decodeState) (err : GoError) : (d.saveError err).scan = d.scan := by
  unfold decodeState.saveError
  cases d.savedError <;> rfl

/-- Decoding into `Data` succeeds exactly with the payload of `ScanData.UnmarshalJSON`. -/
theorem store_data (d d2 : decodeState) (v : JVal) (h : d.store .Data v = .ok d2) :
    ScanData.UnmarshalJSON v = .ok d2.scan.Data := by
  unfold decodeState.store at h
  cases hu : ScanData.UnmarshalJSON v with
  | error e =>
    simp only [hu] at h
    cases h
  | ok p =>
    simp only [hu] at h
    cases h
    rfl

/-- Decoding into another field leaves `Data` alone. -/
theorem store_other (d d2 : decodeState) (f : Field) (v : JVal) (hf : f ≠ .Data)
    (h : d.store f v = .ok d2) : d2.scan.Data = d.scan.Data := by
  cases f with
  | Data => exact absurd rfl hf
  | Ip =>
    cases v <;> simp only [decodeState.store] at h <;> cases h <;>
      first | rfl | rw [saveError_scan]
  | Service =>
    cases v <;> simp only [decodeState.store] at h <;> cases h <;>
      first | rfl | rw [saveError_scan]
  | Port =>
    cases v with
    | num n =>
      simp only [decodeState.store] at h
      cases hp : n.ParseUint with
      | none =>
        simp only [hp] at h
        cases h
        rw [saveError_scan]
      | some u =>
        simp only [hp] at h
        by_cases hu : u < 2 ^ 32
        · rw [if_pos hu] at h
          cases h
          rfl
        · rw [if_neg hu] at h
          cases h
          rw [saveError_scan]
    | null => simp only [decodeState.store] at h; cases h; rfl
    | bool b => simp only [decodeState.store] at h; cases h; rw [saveError_scan]
    | str x => simp only [decodeState.store] at h; cases h; rw [saveError_scan]
    | arr xs => simp only [decodeState.store] at h; cases h; rw [saveError_scan]
    | obj ms => simp only [decodeState.store] at h; cases h; rw [saveError_scan]
  | Timestamp =>
    cases v with
    | num n =>
      simp only [decodeState.store] at h
      cases hp : n.ParseInt with
      | none =>
        simp only [hp] at h
        cases h
        rw [saveError_scan]
      | some u =>
        simp only [hp] at h
        cases h
        rfl
    | null => simp only [decodeState.store] at h; cases h; rfl
    | bool b => simp only [decodeState.store] at h; cases h; rw [saveError_scan]
    | str x => simp only [decodeState.store] at h; cases h; rw [saveError_scan]
    | arr xs => simp only [decodeState.store] at h; cases h; rw [saveError_scan]
    | obj ms => simp only [decodeState.store] at h; cases h; rw [saveError_scan]

/-- Decoding an object into the struct: every member decoded into `Data` went
through `ScanData.UnmarshalJSON` without an error, and `Data` ends as the payload
of the last of them, or as it was when there is none. -/
theorem object_data (ms : List (GoString × JVal)) :
    ∀ d d2 : decodeState, d.object ms = .ok d2 →
      (∀ kv ∈ ms, findField kv.1 = some .Data → ∃ p, ScanData.UnmarshalJSON kv.2 = .ok p) ∧
      (lastData ms = none → d2.scan.Data = d.scan.Data) ∧
      (∀ v, lastData ms = some v → ScanData.UnmarshalJSON v = .ok d2.scan.Data) := by
  induction ms with
  | nil =>
    intro d d2 h
    simp only [decodeState.object] at h
    cases h
    exact ⟨fun _ hkv => (by cases hkv), fun _ => rfl, fun _ hv => (by cases hv)⟩
  | cons m rest ih =>
    obtain ⟨key, v⟩ := m
    intro d d2 h
    simp only [decodeState.object] at h
    cases hf : findField key with
    | none =>
      simp only [hf] at h
      obtain ⟨h1, h2, h3⟩ := ih d d2 h
      have hl : lastData ((key, v) :: rest) = lastData rest := by
        simp only [lastData, hf]
        cases lastData rest <;> simp
      refine ⟨?_, ?_, ?_⟩
      · intro kv hkv hd
        rcases List.mem_cons.mp hkv with hkv | hkv
        · subst hkv
          rw [hf] at hd
          cases hd
        · exact h1 kv hkv hd
      · intro hn
        exact h2 (hl ▸ hn)
      · intro w hw
        exact h3 w (hl ▸ hw)
    | some f =>
      simp only [hf] at h
      cases hst : d.store f v with
      | error e =>
        simp only [hst] at h
        cases h
      | ok d1 =>
        simp only [hst] at h
        obtain ⟨h1, h2, h3⟩ := ih d1 d2 h
        by_cases hfd : f = .Data
        · subst hfd
          have hv := store_data d d1 v hst
          refine ⟨?_, ?_, ?_⟩
          · intro kv hkv hd
            rcases List.mem_cons.mp hkv with hkv | hkv
            · subst hkv
              exact ⟨_, hv⟩
            · exact h1 kv hkv hd
          · intro hn
            simp only [lastData, hf] at hn
            cases hr : lastData rest with
            | none => simp [hr] at hn
            | some w => simp [hr] at hn
          · intro w hw
            simp only [lastData, hf] at hw
            cases hr : lastData rest with
            | none =>
              simp only [hr, if_true, Option.some.injEq] at hw
              subst hw
              rw [h2 hr]
              exact hv
            | some w2 =>
              simp only [hr, Option.some.injEq] at hw
              subst hw
              exact h3 _ hr
        · have hkeep := store_other d d1 f v hfd hst
          have hl : lastData ((key, v) :: rest) = lastData rest := by
            have hne : ¬ (some f = some Field.Data) := fun hc => hfd (Option.some.inj hc)
            simp only [lastData, hf, hne, if_false]
            cases lastData rest <;> rfl
          refine ⟨?_, ?_, ?_⟩
          · intro kv hkv hd
            rcases List.mem_cons.mp hkv with hkv | hkv
            · subst hkv
              rw [hf] at hd
              exact absurd (Option.some.inj hd) hfd
            · exact h1 kv hkv hd
          · intro hn
            rw [h2 (hl ▸ hn), hkeep]
          · intro w hw
            exact h3 w (hl ▸ hw)

/-- A successful decoding of an object: the members decoded into `Data` all decode,
and the payload is the one of the last of them, or empty. -/
theorem unmarshalScan_obj (ms : List (GoString × JVal)) (scan : Scan)
    (h : unmarshalScan (.obj ms) = .ok scan) :
    (∀ kv ∈ ms, findField kv.1 = some .Data → ∃ p, ScanData.UnmarshalJSON kv.2 = .ok p) ∧
    (lastData ms = none → scan.Data = []) ∧
    (∀ v, lastData ms = some v → ScanData.UnmarshalJSON v = .ok scan.Data) := by
  unfold unmarshalScan at h
  by_cases hvalid : checkValid (.obj ms) = false
  · simp only [hvalid, if_true] at h
    cases h
  · simp only [hvalid, if_false] at h
    cases ho : (decodeState.mk Scan.zero none).object ms with
    | error e =>
      simp only [ho] at h
      cases h
    | ok d =>
      simp only [ho] at h
      cases hs : d.savedError with
      | some e =>
        simp only [hs] at h
        cases h
      | none =>
        simp only [hs] at h
        cases h
        exact object_data ms _ d ho

/-! ## Lemmas on the upsert -/

theorem upsert_other (s : Store) (e : Scan) (k : Endpoint) (h : k ≠ e.endpoint) :
    upsert s e k = s k := by
  simp [upsert, h]

theorem upsert_absent (s : Store) (e : Scan) (h : s e.endpoint = none) :
    upsert s e e.endpoint = some e.row := by
  simp [upsert, h]

theorem upsert_older (s : Store) (e : Scan) (r : Row) (h : s e.endpoint = some r)
    (hlt : r.timestamp < e.Timestamp) : upsert s e e.endpoint = some e.row := by
  simp [upsert, h, hlt]

theorem upsert_not_older (s : Store) (e : Scan) (r : Row) (h : s e.endpoint = some r)
    (hge : e.Timestamp ≤ r.timestamp) : upsert s e e.endpoint = some r := by
  simp [upsert, h, not_lt.mpr hge]

theorem upsert_idem (s : Store) (e : Scan) : upsert (upsert s e) e = upsert s e := by
  funext k
  by_cases hk : k = e.endpoint
  · subst hk
    cases hs : s e.endpoint with
    | none => simp [upsert, hs, Scan.row]
    | some r =>
      by_cases hlt : r.timestamp < e.Timestamp
      · simp [upsert, hs, hlt, Scan.row]
      · simp [upsert, hs, hlt]
  · simp [upsert, hk]

theorem upsertTimes_succ (s : Store) (e : Scan) (n : Nat) :
    upsertTimes s e (n + 1) = upsert s e := by
  induction n generalizing s with
  | zero => rfl
  | succ n ih =>
    show upsertTimes (upsert s e) e (n + 1) = upsert s e
    rw [ih, upsert_idem]

/-- A row whose timestamp no later event exceeds stays as it is. -/
theorem upsertAll_keeps (l : List Scan) (s : Store) (k : Endpoint) (r : Row)
    (hs : s k = some r) (hle : ∀ e ∈ l, e.Timestamp ≤ r.timestamp) :
    upsertAll s l k = some r := by
  induction l generalizing s with
  | nil => simpa [upsertAll] using hs
  | cons x xs ih =>
    have hx : x.Timestamp ≤ r.timestamp := hle x (List.mem_cons_self _ _)
    have hstep : upsert s x k = some r := by
      by_cases hk : k = x.endpoint
      · subst hk
        exact upsert_not_older s x r hs hx
      · rw [upsert_other s x k hk, hs]
    exact ih (upsert s x) hstep (fun e he => hle e (List.mem_cons_of_mem _ he))

/-- Events of other keys leave the row of `k` as it is. -/
theorem upsertAll_other (l : List Scan) (s : Store) (k : Endpoint)
    (hk : ∀ e ∈ l, k ≠ e.endpoint) : upsertAll s l k = s k := by
  induction l generalizing s with
  | nil => rfl
  | cons x xs ih =>
    show upsertAll (upsert s x) xs k = s k
    rw [ih (upsert s x) (fun e he => hk e (List.mem_cons_of_mem _ he))]
    exact upsert_other s x k (hk x (List.mem_cons_self _ _))

/-- A list that is not empty has an event with the greatest timestamp. -/
theorem exists_latest (l : List Scan) (hne : l ≠ []) :
    ∃ e ∈ l, ∀ x ∈ l, x.Timestamp ≤ e.Timestamp := by
  induction l with
  | nil => exact absurd rfl hne
  | cons x xs ih =>
    by_cases hxs : xs = []
    · subst hxs
      exact ⟨x, List.mem_cons_self _ _, fun y hy => by
        rcases List.mem_cons.mp hy with h | h
        · rw [h]
        · cases h⟩
    · obtain ⟨e, he, hmax⟩ := ih hxs
      by_cases hle : x.Timestamp ≤ e.Timestamp
      · refine ⟨e, List.mem_cons_of_mem _ he, fun y hy => ?_⟩
        rcases List.mem_cons.mp hy with h | h
        · rw [h]
          exact hle
        · exact hmax y h
      · refine ⟨x, List.mem_cons_self _ _, fun y hy => ?_⟩
        rcases List.mem_cons.mp hy with h | h
        · rw [h]
        · exact le_trans (hmax y h) (le_of_lt (not_le.mp hle))

/-- The row after one statement for an event of key `k`: the event, or a row at
least as new that was there. -/
theorem upsert_row (s : Store) (x : Scan) :
    (upsert s x x.endpoint = some x.row ∧ ∀ r, s x.endpoint = some r → r.timestamp < x.Timestamp) ∨
    ∃ r, s x.endpoint = some r ∧ x.Timestamp ≤ r.timestamp ∧ upsert s x x.endpoint = some r := by
  cases h : s x.endpoint with
  | none =>
    exact Or.inl ⟨upsert_absent s x h, fun r hr => by cases hr⟩
  | some r0 =>
    by_cases hlt : r0.timestamp < x.Timestamp
    · refine Or.inl ⟨upsert_older s x r0 h hlt, fun r hr => ?_⟩
      cases hr
      exact hlt
    · exact Or.inr ⟨r0, rfl, not_lt.mp hlt, upsert_not_older s x r0 h (not_lt.mp hlt)⟩

/-- Among events of one key, when the row they meet is absent or older than one of
them, the row afterwards is the one of an event with the greatest timestamp. -/
theorem upsertAll_latest (l : List Scan) (s : Store) (k : Endpoint)
    (hk : ∀ x ∈ l, x.endpoint = k)
    (hnew : ∃ m ∈ l, ∀ r, s k = some r → r.timestamp < m.Timestamp) :
    ∃ e ∈ l, (∀ x ∈ l, x.Timestamp ≤ e.Timestamp) ∧ upsertAll s l k = some e.row := by
  induction l generalizing s with
  | nil =>
    obtain ⟨m, hm, _⟩ := hnew
    cases hm
  | cons x xs ih =>
    have hxk : x.endpoint = k := hk x (List.mem_cons_self _ _)
    subst hxk
    show ∃ e ∈ x :: xs, (∀ y ∈ x :: xs, y.Timestamp ≤ e.Timestamp) ∧
      upsertAll (upsert s x) xs x.endpoint = some e.row
    obtain ⟨r1, hr1, hx1⟩ : ∃ r1, upsert s x x.endpoint = some r1 ∧
        x.Timestamp ≤ r1.timestamp := by
      rcases upsert_row s x with ⟨h, _⟩ | ⟨r, _, hle, h⟩
      · exact ⟨x.row, h, le_refl _⟩
      · exact ⟨r, h, hle⟩
    by_cases hlater : ∃ y ∈ xs, r1.timestamp < y.Timestamp
    · obtain ⟨y, hy, hlt⟩ := hlater
      obtain ⟨e, he, hmax, hrow⟩ := ih (upsert s x)
        (fun z hz => hk z (List.mem_cons_of_mem _ hz))
        ⟨y, hy, fun r hr => by
          rw [hr1] at hr
          cases hr
          exact hlt⟩
      refine ⟨e, List.mem_cons_of_mem _ he, fun z hz => ?_, hrow⟩
      rcases List.mem_cons.mp hz with h | h
      · rw [h]
        exact le_trans hx1 (le_trans (le_of_lt hlt) (hmax y hy))
      · exact hmax z h
    · have hall : ∀ y ∈ xs, y.Timestamp ≤ r1.timestamp := fun y hy =>
        not_lt.mp (fun hlt => hlater ⟨y, hy, hlt⟩)
      have hkeep := upsertAll_keeps xs (upsert s x) x.endpoint r1 hr1 hall
      rcases upsert_row s x with ⟨h, _⟩ | ⟨r, hs, hle, h⟩
      · rw [hr1] at h
        cases h
        exact ⟨x, List.mem_cons_self _ _, fun z hz => by
          rcases List.mem_cons.mp hz with h2 | h2
          · rw [h2]
          · exact hall z h2, hkeep⟩
      · exfalso
        rw [hr1] at h
        cases h
        obtain ⟨m, hm, hmlt⟩ := hnew
        have hlt := hmlt r1 hs
        rcases List.mem_cons.mp hm with h2 | h2
        · rw [h2] at hlt
          exact absurd hle (not_le.mpr hlt)
        · exact absurd (hall m h2) (not_le.mpr hlt)

/-- What the row of `k` is after events of key `k`, in terms that do not depend on
their order: the stored row when it is at least as new as all of them, the row
of an event with the greatest timestamp otherwise. -/
theorem upsertAll_row (l : List Scan) (s : Store) (k : Endpoint)
    (hk : ∀ x ∈ l, x.endpoint = k) :
    (upsertAll s l k = s k ∧ ∀ x ∈ l, ∀ r, s k = some r → x.Timestamp ≤ r.timestamp) ∨
    ∃ e ∈ l, (∀ x ∈ l, x.Timestamp ≤ e.Timestamp) ∧
      (∀ r, s k = some r → r.timestamp < e.Timestamp) ∧ upsertAll s l k = some e.row := by
  by_cases hl : l = []
  · subst hl
    exact Or.inl ⟨rfl, fun x hx => by cases hx⟩
  · obtain ⟨e, he, hmax⟩ := exists_latest l hl
    by_cases hold : ∀ r, s k = some r → r.timestamp < e.Timestamp
    · obtain ⟨e2, he2, hmax2, hrow⟩ := upsertAll_latest l s k hk ⟨e, he, hold⟩
      have heq : e2.Timestamp = e.Timestamp := le_antisymm (hmax e2 he2) (hmax2 e he)
      exact Or.inr ⟨e2, he2, hmax2, fun r hr => heq ▸ hold r hr, hrow⟩
    · have hex : ∃ r, s k = some r ∧ e.Timestamp ≤ r.timestamp := by
        by_contra hc
        exact hold (fun r hr => not_le.mp (fun hle => hc ⟨r, hr, hle⟩))
      obtain ⟨r, hr, hle⟩ := hex
      refine Or.inl ⟨?_, fun x hx r2 hr2 => ?_⟩
      · rw [hr]
        exact upsertAll_keeps l s k r hr (fun x hx => le_trans (hmax x hx) hle)
      · rw [hr] at hr2
        cases hr2
        exact le_trans (hmax x hx) hle

/-- An event that is newer than the stored row and at least as new as the events
after it is the one stored in the end. -/
theorem upsertAll_head_latest (x : Scan) (xs : List Scan) (s : Store)
    (hold : ∀ r, s x.endpoint = some r → r.timestamp < x.Timestamp)
    (hmax : ∀ y ∈ xs, y.Timestamp ≤ x.Timestamp) :
    upsertAll s (x :: xs) x.endpoint = some x.row := by
  have hstep : upsert s x x.endpoint = some x.row := by
    cases h : s x.endpoint with
    | none => exact upsert_absent s x h
    | some r => exact upsert_older s x r h (hold r h)
  exact upsertAll_keeps xs (upsert s x) x.endpoint x.row hstep hmax

/-- When the latest events agree on their data, any of them is the one stored. -/
theorem upsertAll_latest_of_ties (l : List Scan) (s : Store) (k : Endpoint)
    (hk : ∀ x ∈ l, x.endpoint = k) (htie : maxTiesAgree s k l) (e : Scan) (he : e ∈ l)
    (hmax : ∀ x ∈ l, x.Timestamp ≤ e.Timestamp)
    (hold : ∀ r, s k = some r → r.timestamp < e.Timestamp) :
    upsertAll s l k = some e.row := by
  obtain ⟨e2, he2, hmax2, hrow⟩ := upsertAll_latest l s k hk ⟨e, he, hold⟩
  have hts : e2.Timestamp = e.Timestamp := le_antisymm (hmax e2 he2) (hmax2 e he)
  have hd : e.Data = e2.Data := htie e he e2 he2 hmax hts hold
  rw [hrow]
  simp [Scan.row, hts, hd]

/-- Agreement of the latest events is a property of the events, not of their
order. -/
theorem maxTiesAgree_perm (s : Store) (k : Endpoint) (l l2 : List Scan) (hp : l.Perm l2)
    (htie : maxTiesAgree s k l) : maxTiesAgree s k l2 :=
  fun x hx y hy hmax hts hold =>
    htie x (hp.mem_iff.mpr hx) y (hp.mem_iff.mpr hy)
      (fun z hz => hmax z (hp.mem_iff.mp hz)) hts hold

/-! ## The reconciliation store -/

/-- C1 (last write wins under reordering): when the table has no row for the
endpoint and two events of that endpoint have timestamps `t1 < t2`, running the
statement for the first then the second, or for the second then the first, leaves
the row `(t2, data2)`. -/
theorem lastWriteWins_reordering (s : Store) (e1 e2 : Scan)
    (hk : e1.endpoint = e2.endpoint) (hs : s e2.endpoint = none)
    (ht : e1.Timestamp < e2.Timestamp) :
    upsert (upsert s e1) e2 e2.endpoint = some ⟨e2.Timestamp, e2.Data⟩ ∧
    upsert (upsert s e2) e1 e2.endpoint = some ⟨e2.Timestamp, e2.Data⟩ := by
  have h1 : upsert s e1 e2.endpoint = some e1.row := by
    rw [← hk]
    exact upsert_absent s e1 (hk ▸ hs)
  have h2 : upsert s e2 e2.endpoint = some e2.row := upsert_absent s e2 hs
  constructor
  · exact upsert_older (upsert s e1) e2 e1.row h1 ht
  · have h3 := upsert_not_older (upsert s e2) e1 e2.row (hk ▸ h2) (le_of_lt ht)
    rw [hk] at h3
    exact h3

/-- C1 at the events `older` (time 100) and `newer` (time 200) on the empty table. -/
theorem lastWriteWins_reordering_witness :
    upsert (upsert Store.empty older) newer newer.endpoint = some ⟨200, lit "new"⟩ ∧
    upsert (upsert Store.empty newer) older newer.endpoint = some ⟨200, lit "new"⟩ :=
  lastWriteWins_reordering Store.empty older newer (by decide) rfl (by decide)

/-- C2 (idempotence): running the statement for the same event `n ≥ 1` times gives
the same table as running it once; a second run changes nothing, the stored
timestamp being then at least the event's. -/
theorem upsert_idempotent (s : Store) (e : Scan) (n : Nat) (hn : 1 ≤ n) :
    upsertTimes s e n = upsert s e ∧
    upsert (upsert s e) e = upsert s e ∧
    ∀ r, upsert s e e.endpoint = some r → ¬ r.timestamp < e.Timestamp := by
  refine ⟨?_, upsert_idem s e, ?_⟩
  · obtain ⟨m, rfl⟩ : ∃ m, n = m + 1 := ⟨n - 1, by omega⟩
    exact upsertTimes_succ s e m
  · intro r hr
    cases hs : s e.endpoint with
    | none =>
      rw [upsert_absent s e hs] at hr
      cases hr
      exact lt_irrefl _
    | some r0 =>
      by_cases h0 : r0.timestamp < e.Timestamp
      · rw [upsert_older s e r0 hs h0] at hr
        cases hr
        exact lt_irrefl _
      · rw [upsert_not_older s e r0 hs (not_lt.mp h0)] at hr
        cases hr
        exact h0

/-- C2 at three deliveries of `newer` to a table that already holds `older`. -/
theorem upsert_idempotent_witness :
    upsertTimes (upsert Store.empty older) newer 3 = upsert (upsert Store.empty older) newer ∧
    upsert (upsert (upsert Store.empty older) newer) newer =
      upsert (upsert Store.empty older) newer ∧
    ∀ r, upsert (upsert Store.empty older) newer newer.endpoint = some r →
      ¬ r.timestamp < newer.Timestamp :=
  upsert_idempotent (upsert Store.empty older) newer 3 (by decide)

/-- C3 (conditional upsert): after the statement for `e`, (a) a missing row for the
endpoint of `e` is there as `(timestamp, data)` of `e`; (b) a row with an older
timestamp has become that; (c) a row whose timestamp is not older, equal ones
included, is as it was. Hence a row `r` that is no longer stored afterwards was
replaced by an event of its endpoint with a strictly greater timestamp. -/
theorem conditional_upsert (s : Store) (e : Scan) :
    (s e.endpoint = none → upsert s e e.endpoint = some ⟨e.Timestamp, e.Data⟩) ∧
    (∀ r, s e.endpoint = some r → r.timestamp < e.Timestamp →
      upsert s e e.endpoint = some ⟨e.Timestamp, e.Data⟩) ∧
    (∀ r, s e.endpoint = some r → e.Timestamp ≤ r.timestamp →
      upsert s e e.endpoint = some r) ∧
    (∀ k r, s k = some r → upsert s e k ≠ some r →
      k = e.endpoint ∧ r.timestamp < e.Timestamp ∧
        upsert s e k = some ⟨e.Timestamp, e.Data⟩) := by
  refine ⟨upsert_absent s e, upsert_older s e, upsert_not_older s e, ?_⟩
  intro k r hs hne
  by_cases hk : k = e.endpoint
  · subst hk
    by_cases hlt : r.timestamp < e.Timestamp
    · exact ⟨rfl, hlt, upsert_older s e r hs hlt⟩
    · exact absurd (upsert_not_older s e r hs (not_lt.mp hlt)) hne
  · exact absurd ((upsert_other s e k hk).trans hs) hne

/-- C4 as stated fails: `tieA` and `tieB` share endpoint and timestamp and differ in
data; from the empty table the first one run stays, so the two orders end in
different tables. And from a table that holds a newer row, the row after the
events is that row, not the one of the latest event. -/
theorem upsertAll_order_matters_on_ties :
    tieA.endpoint = tieB.endpoint ∧ [tieA, tieB].Perm [tieB, tieA] ∧
    upsertAll Store.empty [tieA, tieB] tieA.endpoint = some ⟨100, lit "a"⟩ ∧
    upsertAll Store.empty [tieB, tieA] tieA.endpoint = some ⟨100, lit "b"⟩ ∧
    upsertAll Store.empty [tieA, tieB] ≠ upsertAll Store.empty [tieB, tieA] ∧
    upsertAll (upsert Store.empty newer) [older] older.endpoint = some ⟨200, lit "new"⟩ := by
  refine ⟨by decide, List.Perm.swap _ _ _, by decide, by decide, ?_, by decide⟩
  intro h
  have h2 := congrFun h tieA.endpoint
  revert h2
  decide

/-- C4, amended (order independence): for events of one endpoint, every
permutation of the list ends in the same table exactly when the events with the
greatest timestamp carry the same data or the stored row of the endpoint is at
least as new as they are. The row of the endpoint afterwards is the stored row
when that row's timestamp is at least every event's; otherwise it is
`(timestamp, data)` of an event with the greatest timestamp, and of every such
event when those agree on their data. -/
theorem upsertAll_order_independent (s : Store) (k : Endpoint) (l : List Scan)
    (hk : ∀ e ∈ l, e.endpoint = k) :
    ((∀ l2, l.Perm l2 → upsertAll s l = upsertAll s l2) ↔ maxTiesAgree s k l) ∧
    (∀ r, s k = some r → (∀ e ∈ l, e.Timestamp ≤ r.timestamp) →
      upsertAll s l k = some r) ∧
    ((∃ m ∈ l, ∀ r, s k = some r → r.timestamp < m.Timestamp) →
      ∃ e ∈ l, (∀ x ∈ l, x.Timestamp ≤ e.Timestamp) ∧
        upsertAll s l k = some ⟨e.Timestamp, e.Data⟩) ∧
    (maxTiesAgree s k l → ∀ e ∈ l, (∀ x ∈ l, x.Timestamp ≤ e.Timestamp) →
      (∀ r, s k = some r → r.timestamp < e.Timestamp) →
      upsertAll s l k = some ⟨e.Timestamp, e.Data⟩) := by
  refine ⟨⟨?_, ?_⟩, ?_, ?_, ?_⟩
  · intro hperm x hx y hy hmax hts hold
    have hxk : x.endpoint = k := hk x hx
    have hyk : y.endpoint = k := hk y hy
    have h1 : upsertAll s (x :: l.erase x) k = some x.row := by
      rw [← hxk]
      exact upsertAll_head_latest x (l.erase x) s (hxk ▸ hold)
        (fun z hz => hmax z (List.mem_of_mem_erase hz))
    have h2 : upsertAll s (y :: l.erase y) k = some y.row := by
      rw [← hyk]
      exact upsertAll_head_latest y (l.erase y) s
        (fun r hr => hts ▸ hold r (hyk ▸ hr))
        (fun z hz => hts ▸ hmax z (List.mem_of_mem_erase hz))
    rw [← hperm _ (List.perm_cons_erase hx)] at h1
    rw [← hperm _ (List.perm_cons_erase hy), h1] at h2
    have h3 : x.row = y.row := Option.some.inj h2
    exact congrArg Row.data h3
  · intro htie l2 hp
    have hk2 : ∀ e ∈ l2, e.endpoint = k := fun e he => hk e (hp.mem_iff.mpr he)
    funext k2
    by_cases hkk : k2 = k
    · subst hkk
      by_cases hl : l = []
      · subst hl
        rw [List.Perm.nil_eq hp]
      · obtain ⟨e, he, hmax⟩ := exists_latest l hl
        by_cases hold : ∀ r, s k2 = some r → r.timestamp < e.Timestamp
        · rw [upsertAll_latest_of_ties l s k2 hk htie e he hmax hold,
            upsertAll_latest_of_ties l2 s k2 hk2 (maxTiesAgree_perm s k2 l l2 hp htie) e
              (hp.mem_iff.mp he) (fun x hx => hmax x (hp.mem_iff.mpr hx)) hold]
        · have hex : ∃ r, s k2 = some r ∧ e.Timestamp ≤ r.timestamp := by
            by_contra hc
            exact hold (fun r hr => not_le.mp (fun hle => hc ⟨r, hr, hle⟩))
          obtain ⟨r, hr, hle⟩ := hex
          rw [upsertAll_keeps l s k2 r hr (fun x hx => le_trans (hmax x hx) hle),
            upsertAll_keeps l2 s k2 r hr
              (fun x hx => le_trans (hmax x (hp.mem_iff.mpr hx)) hle)]
    · rw [upsertAll_other l s k2 (fun e he => (hk e he) ▸ hkk),
        upsertAll_other l2 s k2 (fun e he => (hk2 e he) ▸ hkk)]
  · intro r hs hle
    exact upsertAll_keeps l s k r hs hle
  · intro hnew
    exact upsertAll_latest l s k hk hnew
  · intro htie e he hmax hold
    exact upsertAll_latest_of_ties l s k hk htie e he hmax hold

/-- C4, amended, at `[tieA, tieB, newer]`: the tie of the two older events does not
matter, every order ends with the row of `newer`. -/
theorem upsertAll_order_independent_witness :
    upsertAll Store.empty [tieA, tieB, newer] = upsertAll Store.empty [newer, tieB, tieA] ∧
    upsertAll Store.empty [tieA, tieB, newer] newer.endpoint = some ⟨200, lit "new"⟩ := by
  have h := upsertAll_order_independent Store.empty newer.endpoint [tieA, tieB, newer]
    (by decide)
  have htie : maxTiesAgree Store.empty newer.endpoint [tieA, tieB, newer] := by
    intro x hx y hy hmax hts _
    have h200 := hmax newer (by simp)
    simp only [List.mem_cons, List.mem_singleton, List.not_mem_nil, or_false] at hx hy
    rcases hx with rfl | rfl | rfl
    · exact absurd h200 (by decide)
    · exact absurd h200 (by decide)
    · rcases hy with rfl | rfl | rfl
      · exact absurd hts (by decide)
      · exact absurd hts (by decide)
      · rfl
  refine ⟨h.1.mpr htie _ (by decide), ?_⟩
  exact h.2.2.2 htie newer (by decide) (by decide) (fun r hr => by cases hr)

/-- C10 (independent endpoints): the statement for `e` leaves the row of any
endpoint that differs from the one of `e` in ip, port or service as it was, there
or not; and no row of the table disappears. -/
theorem other_endpoints_untouched (s : Store) (e : Scan) (B : Endpoint)
    (hB : B.1 ≠ e.Ip ∨ B.2.1 ≠ e.Port ∨ B.2.2 ≠ e.Service) :
    upsert s e B = s B ∧ ∀ k r, s k = some r → ∃ r2, upsert s e k = some r2 := by
  constructor
  · apply upsert_other
    intro h
    rw [h] at hB
    simp [Scan.endpoint] at hB
  · intro k r hs
    by_cases hk : k = e.endpoint
    · subst hk
      by_cases hlt : r.timestamp < e.Timestamp
      · exact ⟨_, upsert_older s e r hs hlt⟩
      · exact ⟨_, upsert_not_older s e r hs (not_lt.mp hlt)⟩
    · exact ⟨r, (upsert_other s e k hk).trans hs⟩

/-- C10 at the row of `10.0.0.1:443/https` while `10.0.0.1:80/http` is written. -/
theorem other_endpoints_untouched_witness :
    upsert (upsert Store.empty older) ⟨lit "10.0.0.1", 80, lit "http", 300, lit "x"⟩
        older.endpoint = upsert Store.empty older older.endpoint ∧
    ∀ k r, upsert Store.empty older k = some r →
      ∃ r2, upsert (upsert Store.empty older) ⟨lit "10.0.0.1", 80, lit "http", 300, lit "x"⟩ k
        = some r2 :=
  other_endpoints_untouched (upsert Store.empty older)
    ⟨lit "10.0.0.1", 80, lit "http", 300, lit "x"⟩ older.endpoint (Or.inr (Or.inl (by decide)))

/-! ## The payload decoder -/

/-- C5 as stated fails: the data object
`{"response_bytes_utf8": base64("hello"), "response_str": 1e999}` binds the first
key to valid base64, yet decoding it is an error, because `json.Unmarshal` cannot
put `1e999` into the map. -/
theorem variantA_fails_on_huge_number :
    (∃ ms, dataV1Huge = .obj ms ∧
      membersMap ms keyV1 = some (.str (EncodeToString (lit "hello")))) ∧
    ScanData.UnmarshalJSON dataV1Huge = .error (.unmarshalTypeError "number" "float64") :=
  ⟨⟨_, rfl, rfl⟩, by decide⟩

/-- C5, amended (variant A round trip with precedence): for every byte sequence
`b` and every data object that `json.Unmarshal` can decode into the map (nesting
within the limit, every number fitting a `float64`) and that binds
`response_bytes_utf8` to the string `base64(b)`, `ScanData.UnmarshalJSON` succeeds
with payload `b`, whatever else the object holds, `response_str` included. -/
theorem variantA_roundtrip (b : List Byte) (ms : List (GoString × JVal))
    (hvalid : checkValid (.obj ms) = true) (hnum : numbersFitMembers ms = true)
    (hkey : membersMap ms keyV1 = some (.str (EncodeToString b))) :
    ScanData.UnmarshalJSON (.obj ms) = .ok b := by
  rw [UnmarshalJSON_of_map _ _ (unmarshalDataMap_obj ms hvalid hnum), hkey]
  simp only [DecodeString_EncodeToString]

/-- C5, amended, at `{"response_bytes_utf8": base64("hello"), "response_str": "x"}`. -/
theorem variantA_roundtrip_witness :
    EncodeToString (lit "hello") = lit "aGVsbG8=" ∧
    ScanData.UnmarshalJSON
      (.obj [(keyV1, .str (EncodeToString (lit "hello"))), (keyV2, .str (lit "x"))]) =
      .ok (lit "hello") :=
  ⟨by decide, variantA_roundtrip (lit "hello") _ (by decide) (by decide) rfl⟩

/-- C6 as stated fails: the data object `{"response_str": "hello", "meta": [1e999]}`
has no `response_bytes_utf8` and binds `response_str` to a string, yet decoding
it is an error. -/
theorem variantB_fails_on_huge_number :
    (∃ ms, dataV2Huge = .obj ms ∧ membersMap ms keyV1 = none ∧
      membersMap ms keyV2 = some (.str (lit "hello"))) ∧
    ScanData.UnmarshalJSON dataV2Huge = .error (.unmarshalTypeError "number" "float64") :=
  ⟨⟨_, rfl, rfl, rfl⟩, by decide⟩

/-- C6, amended (variant B): for every string `s` and every data object that
`json.Unmarshal` can decode into the map (nesting within the limit, every number
fitting a `float64`), that has no `response_bytes_utf8` and binds `response_str`
to the string `s`, `ScanData.UnmarshalJSON` succeeds with payload `s`, the bytes of
the string as they are. -/
theorem variantB_decoding (str : GoString) (ms : List (GoString × JVal))
    (hvalid : checkValid (.obj ms) = true) (hnum : numbersFitMembers ms = true)
    (hno : membersMap ms keyV1 = none)
    (hkey : membersMap ms keyV2 = some (.str str)) :
    ScanData.UnmarshalJSON (.obj ms) = .ok str := by
  rw [UnmarshalJSON_of_map _ _ (unmarshalDataMap_obj ms hvalid hnum), hno, hkey]

/-- C6, amended, at `{"response_str": "hello"}`. -/
theorem variantB_decoding_witness :
    ScanData.UnmarshalJSON (.obj [(keyV2, .str (lit "hello"))]) = .ok (lit "hello") :=
  variantB_decoding (lit "hello") _ (by decide) (by decide) rfl rfl

/-- C7 as stated fails: `{"response_str": "hello", "rtt": 1e999}` meets none of the
three conditions (no `response_bytes_utf8`, `response_str` bound to a string),
yet decoding it is an error. -/
theorem decode_fails_outside_three_cases :
    (∃ ms, dataV2Rtt = .obj ms ∧ membersMap ms keyV1 = none ∧
      membersMap ms keyV2 = some (.str (lit "hello"))) ∧
    ScanData.UnmarshalJSON dataV2Rtt = .error (.unmarshalTypeError "number" "float64") :=
  ⟨⟨_, rfl, rfl, rfl⟩, by decide⟩

/-- C7, amended (decode failure): on a data object, `ScanData.UnmarshalJSON` returns
an error exactly when (o) `json.Unmarshal` cannot decode the object into the map
(nesting beyond the limit, or a number that does not fit a `float64`), or (i) it
binds `response_bytes_utf8` to a value that is not a string or to a string that
`base64.StdEncoding` does not decode, or (ii) it has no `response_bytes_utf8`
and binds `response_str` to a value that is not a string, or (iii) it has neither
key; and a data value that is not an object always fails. The objects `{}` and
`{"response_bytes_utf8": 123}` both fail. -/
theorem decode_failure_cases :
    (∀ ms : List (GoString × JVal),
      (∃ err, ScanData.UnmarshalJSON (.obj ms) = .error err) ↔
        ((checkValid (.obj ms) = false ∨ numbersFitMembers ms = false) ∨
         (∃ v, membersMap ms keyV1 = some v ∧
            ((∀ str, v ≠ .str str) ∨
              ∃ str err, v = .str str ∧ DecodeString str = .error err)) ∨
         (membersMap ms keyV1 = none ∧
            ∃ v, membersMap ms keyV2 = some v ∧ ∀ str, v ≠ .str str) ∨
         (membersMap ms keyV1 = none ∧ membersMap ms keyV2 = none))) ∧
    (∀ data : JVal, (∀ ms, data ≠ .obj ms) →
      ∃ err, ScanData.UnmarshalJSON data = .error err) ∧
    ScanData.UnmarshalJSON (.obj []) =
      .error (.errorf "error unmarshalling ScanData: invalid data format") ∧
    ScanData.UnmarshalJSON (.obj [(keyV1, JVal.ofNat 123)]) =
      .error (.errorf
        "error unmarshalling ScanData: expected response_bytes_utf8 to be a string") := by
  refine ⟨?_, UnmarshalJSON_not_obj, by decide, by decide⟩
  intro ms
  by_cases hbad : checkValid (.obj ms) = false ∨ numbersFitMembers ms = false
  · constructor
    · intro _
      exact Or.inl hbad
    · intro _
      obtain ⟨err, herr⟩ := unmarshalDataMap_obj_error ms hbad
      exact ⟨err, by simp only [ScanData.UnmarshalJSON, herr]⟩
  · have hvalid : checkValid (.obj ms) = true := by
      cases h : checkValid (.obj ms) with
      | true => rfl
      | false => exact absurd (Or.inl h) hbad
    have hnum : numbersFitMembers ms = true := by
      cases h : numbersFitMembers ms with
      | true => rfl
      | false => exact absurd (Or.inr h) hbad
    have hmap := UnmarshalJSON_of_map _ _ (unmarshalDataMap_obj ms hvalid hnum)
    have hfail : ∀ msg, ScanData.UnmarshalJSON (.obj ms) = .error (.errorf msg) →
        ∀ P : Prop, P → ((∃ err, ScanData.UnmarshalJSON (.obj ms) = .error err) ↔ P) :=
      fun msg h P hP => ⟨fun _ => hP, fun _ => ⟨_, h⟩⟩
    cases h1 : membersMap ms keyV1 with
    | some v1 =>
      simp only [h1] at hmap
      cases v1 with
      | str str =>
        cases hd : DecodeString str with
        | error e =>
          simp only [hd] at hmap
          exact ⟨fun _ => Or.inr (Or.inl ⟨_, rfl, Or.inr ⟨str, e, rfl, hd⟩⟩),
            fun _ => ⟨_, hmap⟩⟩
        | ok decoded =>
          simp only [hd] at hmap
          constructor
          · rintro ⟨err, herr⟩
            rw [hmap] at herr
            cases herr
          · rintro (h | ⟨v, hv, h | ⟨s2, e2, hs2, he2⟩⟩ | ⟨h, _⟩ | ⟨h, _⟩)
            · exact absurd h hbad
            · cases hv
              exact absurd rfl (h str)
            · cases hv
              cases hs2
              rw [hd] at he2
              cases he2
            · cases h
            · cases h
      | null =>
        exact hfail _ hmap _ (Or.inr (Or.inl ⟨_, rfl, Or.inl (fun _ h => by cases h)⟩))
      | bool b =>
        exact hfail _ hmap _ (Or.inr (Or.inl ⟨_, rfl, Or.inl (fun _ h => by cases h)⟩))
      | num n =>
        exact hfail _ hmap _ (Or.inr (Or.inl ⟨_, rfl, Or.inl (fun _ h => by cases h)⟩))
      | arr xs =>
        exact hfail _ hmap _ (Or.inr (Or.inl ⟨_, rfl, Or.inl (fun _ h => by cases h)⟩))
      | obj ms2 =>
        exact hfail _ hmap _ (Or.inr (Or.inl ⟨_, rfl, Or.inl (fun _ h => by cases h)⟩))
    | none =>
      simp only [h1] at hmap
      cases h2 : membersMap ms keyV2 with
      | none =>
        simp only [h2] at hmap
        exact hfail _ hmap _ (Or.inr (Or.inr (Or.inr ⟨rfl, rfl⟩)))
      | some v2 =>
        simp only [h2] at hmap
        cases v2 with
        | str str =>
          constructor
          · rintro ⟨err, herr⟩
            rw [hmap] at herr
            cases herr
          · rintro (h | ⟨v, hv, _⟩ | ⟨_, v, hv, h⟩ | ⟨_, h⟩)
            · exact absurd h hbad
            · cases hv
            · cases hv
              exact absurd rfl (h str)
            · cases h
        | null =>
          exact hfail _ hmap _ (Or.inr (Or.inr (Or.inl ⟨rfl, _, rfl, fun _ h => by cases h⟩)))
        | bool b =>
          exact hfail _ hmap _ (Or.inr (Or.inr (Or.inl ⟨rfl, _, rfl, fun _ h => by cases h⟩)))
        | num n =>
          exact hfail _ hmap _ (Or.inr (Or.inr (Or.inl ⟨rfl, _, rfl, fun _ h => by cases h⟩)))
        | arr xs =>
          exact hfail _ hmap _ (Or.inr (Or.inr (Or.inl ⟨rfl, _, rfl, fun _ h => by cases h⟩)))
        | obj ms2 =>
          exact hfail _ hmap _ (Or.inr (Or.inr (Or.inl ⟨rfl, _, rfl, fun _ h => by cases h⟩)))

/-! ## The delivery handler -/

/-- C8 (a message without payload is not rejected): the message
`{"ip": "10.0.0.1", "port": 443, "service": "https", "timestamp": 200}` holds no
recognized data key at all, yet `json.Unmarshal` never calls
`ScanData.UnmarshalJSON` for it: decoding succeeds with an empty payload, the
statement runs and replaces the stored `(100, old)` of the endpoint by
`(200, empty)`, and the message is acked. The same message with `"data": {}` or
`"data": null` reaches scan.go:52, is a decode failure, sends no statement and is
nacked. -/
theorem message_without_data_is_stored :
    messageNoData.unmarshal = .ok ⟨lit "10.0.0.1", 443, lit "https", 200, []⟩ ∧
    (insertMessage Exec.healthy (upsert Store.empty older) messageNoData).err = none ∧
    (insertMessage Exec.healthy (upsert Store.empty older) messageNoData).statements =
      [⟨lit "10.0.0.1", 443, lit "https", 200, []⟩] ∧
    upsert Store.empty older (lit "10.0.0.1", 443, lit "https") = some ⟨100, lit "old"⟩ ∧
    (insertMessage Exec.healthy (upsert Store.empty older) messageNoData).store
      (lit "10.0.0.1", 443, lit "https") = some ⟨200, []⟩ ∧
    (receive Exec.healthy (upsert Store.empty older) messageNoData).signals = [.Ack] ∧
    messageEmptyData.unmarshal =
      .error (.errorf "error unmarshalling ScanData: invalid data format") ∧
    messageNullData.unmarshal =
      .error (.errorf "error unmarshalling ScanData: invalid data format") ∧
    (receive Exec.healthy (upsert Store.empty older) messageEmptyData).signals = [.Nack] ∧
    (receive Exec.healthy (upsert Store.empty older) messageEmptyData).statements = [] ∧
    (receive Exec.healthy (upsert Store.empty older) messageNullData).signals = [.Nack] ∧
    (receive Exec.healthy (upsert Store.empty older) messageNullData).statements = [] := by
  refine ⟨by decide, by decide, by decide, by decide, by decide, by decide, by decide,
    by decide, by decide, by decide, by decide, by decide⟩

/-- C9 (acknowledgment policy): whatever the database does, the callback gives
one answer per message, and it is an ack exactly when decoding succeeds and
`pool.Exec` returns no error. On a decode failure the answer is a nack, no
statement is sent and the table is as it was. On a decoded message exactly one
statement is sent, the one for the decoded scan, and the table is the one
`pool.Exec` leaves; when that call returns an error the answer is a nack. -/
theorem ack_policy (exec : Exec) (pool : Store) (data : MessageData) :
    ((receive exec pool data).signals = [.Ack] ∨
      (receive exec pool data).signals = [.Nack]) ∧
    ((receive exec pool data).signals = [.Ack] ↔
      ∃ scan, data.unmarshal = .ok scan ∧ (exec pool scan).1 = none) ∧
    (∀ err, data.unmarshal = .error err →
      (receive exec pool data).signals = [.Nack] ∧
      (receive exec pool data).statements = [] ∧
      (receive exec pool data).store = pool) ∧
    (∀ scan, data.unmarshal = .ok scan →
      (receive exec pool data).statements = [scan] ∧
      (receive exec pool data).store = (exec pool scan).2) ∧
    (∀ scan err, data.unmarshal = .ok scan → (exec pool scan).1 = some err →
      (receive exec pool data).signals = [.Nack]) := by
  cases hd : data.unmarshal with
  | error e =>
    have hr : receive exec pool data = ⟨[.Nack], pool, []⟩ := by
      simp [receive, insertMessage, hd]
    rw [hr]
    refine ⟨Or.inr rfl, ?_, ?_, ?_, ?_⟩
    · constructor
      · intro h
        cases h
      · rintro ⟨_, h, _⟩
        cases h
    · intro _ _
      exact ⟨rfl, rfl, rfl⟩
    · intro _ h
      cases h
    · intro _ _ h
      cases h
  | ok scan =>
    cases he : (exec pool scan).1 with
    | none =>
      have hr : receive exec pool data = ⟨[.Ack], (exec pool scan).2, [scan]⟩ := by
        simp [receive, insertMessage, hd, he]
      rw [hr]
      refine ⟨Or.inl rfl, ?_, ?_, ?_, ?_⟩
      · exact ⟨fun _ => ⟨scan, rfl, he⟩, fun _ => rfl⟩
      · intro _ h
        cases h
      · intro scan2 h2
        cases h2
        exact ⟨rfl, rfl⟩
      · intro scan2 err h2 herr
        cases h2
        rw [he] at herr
        cases herr
    | some err0 =>
      have hr : receive exec pool data = ⟨[.Nack], (exec pool scan).2, [scan]⟩ := by
        simp [receive, insertMessage, hd, he]
      rw [hr]
      refine ⟨Or.inr rfl, ?_, ?_, ?_, ?_⟩
      · constructor
        · intro h
          cases h
        · rintro ⟨scan2, h2, hnone⟩
          cases h2
          rw [he] at hnone
          cases hnone
      · intro _ h
        cases h
      · intro scan2 h2
        cases h2
        exact ⟨rfl, rfl⟩
      · intro _ _ _ _
        rfl

/-! ## Where a decoded payload comes from -/

/-- The one way past `ScanData.UnmarshalJSON`: when decoding a message into a
`Scan` succeeds, either no member of the message is decoded into `Data` (the
message is `null`, or an object with no member named `data`), or the last member
decoded into `Data` is an object that binds `response_bytes_utf8` to a string
whose base64 decoding is the payload, or has no such key and binds
`response_str` to a string that is the payload. A message with a member decoded
into `Data` that is not an object, or is an object with neither key, is a decode
failure: `insertMessage` returns an error, sends no statement and leaves the
table as it was. -/
theorem decoded_payload_origin (data : MessageData) :
    (∀ scan, data.unmarshal = .ok scan →
      (data = .text .null ∧ scan.Data = []) ∨
      ∃ ms, data = .text (.obj ms) ∧
        ((lastData ms = none ∧ scan.Data = []) ∨
         ∃ ms2, lastData ms = some (.obj ms2) ∧
           ((∃ str, membersMap ms2 keyV1 = some (.str str) ∧
              DecodeString str = .ok scan.Data) ∨
            (membersMap ms2 keyV1 = none ∧ membersMap ms2 keyV2 = some (.str scan.Data))))) ∧
    (∀ ms, data = .text (.obj ms) → ∀ kv ∈ ms, findField kv.1 = some .Data →
      ((∀ ms2, kv.2 ≠ .obj ms2) ∨
        ∃ ms2, kv.2 = .obj ms2 ∧ membersMap ms2 keyV1 = none ∧ membersMap ms2 keyV2 = none) →
      ∀ (exec : Exec) (pool : Store),
        (∃ err, data.unmarshal = .error err) ∧
        (insertMessage exec pool data).err ≠ none ∧
        (insertMessage exec pool data).statements = [] ∧
        (insertMessage exec pool data).store = pool) := by
  constructor
  · intro scan h
    cases data with
    | malformed => cases h
    | text v =>
      cases v with
      | null =>
        left
        have hz : unmarshalScan .null = .ok Scan.zero := by
          simp [unmarshalScan, checkValid, JVal.depth]
        have h2 : unmarshalScan .null = .ok scan := h
        rw [hz] at h2
        cases h2
        exact ⟨rfl, rfl⟩
      | obj ms =>
        right
        refine ⟨ms, rfl, ?_⟩
        obtain ⟨_, h2, h3⟩ := unmarshalScan_obj ms scan h
        cases hl : lastData ms with
        | none => exact Or.inl ⟨rfl, h2 hl⟩
        | some v =>
          right
          obtain ⟨ms2, hv, hkeys⟩ := UnmarshalJSON_ok v scan.Data (h3 v hl)
          exact ⟨ms2, by rw [hv], hkeys⟩
      | bool b =>
        have h2 : unmarshalScan (.bool b) = .ok scan := h
        unfold unmarshalScan at h2
        by_cases hvalid : checkValid (.bool b) = false
        · simp only [hvalid, if_true] at h2
          cases h2
        · simp only [hvalid, if_false] at h2
          cases h2
      | num n =>
        have h2 : unmarshalScan (.num n) = .ok scan := h
        unfold unmarshalScan at h2
        by_cases hvalid : checkValid (.num n) = false
        · simp only [hvalid, if_true] at h2
          cases h2
        · simp only [hvalid, if_false] at h2
          cases h2
      | str x =>
        have h2 : unmarshalScan (.str x) = .ok scan := h
        unfold unmarshalScan at h2
        by_cases hvalid : checkValid (.str x) = false
        · simp only [hvalid, if_true] at h2
          cases h2
        · simp only [hvalid, if_false] at h2
          cases h2
      | arr xs =>
        have h2 : unmarshalScan (.arr xs) = .ok scan := h
        unfold unmarshalScan at h2
        by_cases hvalid : checkValid (.arr xs) = false
        · simp only [hvalid, if_true] at h2
          cases h2
        · simp only [hvalid, if_false] at h2
          cases h2
  · intro ms hdata kv hkv hfield hkeys exec pool
    subst hdata
    have hfail : ∃ err, (MessageData.text (.obj ms)).unmarshal = .error err := by
      cases hu : (MessageData.text (.obj ms)).unmarshal with
      | error e => exact ⟨e, rfl⟩
      | ok scan =>
        exfalso
        obtain ⟨h1, _, _⟩ := unmarshalScan_obj ms scan hu
        obtain ⟨p, hp⟩ := h1 kv hkv hfield
        obtain ⟨ms2, hv, hk⟩ := UnmarshalJSON_ok kv.2 p hp
        rcases hkeys with hno | ⟨ms3, hv3, hn1, hn2⟩
        · exact hno ms2 hv
        · rw [hv] at hv3
          cases hv3
          rcases hk with ⟨str, hs, _⟩ | ⟨_, hs⟩
          · rw [hn1] at hs
            cases hs
          · rw [hn2] at hs
            cases hs
    obtain ⟨err, herr⟩ := hfail
    refine ⟨⟨err, herr⟩, ?_, ?_, ?_⟩ <;> simp [insertMessage, herr]

end Subscriber
